import Mathlib

/-
Verification development for the indexed-repository core of the ICV backend
(src/backend/src/entities.rs).

The persistent stores are modelled as lists:
* each primary `StableBTreeMap` (CHAT_MESSAGE, CONVERSATION, USER) is an
  association list of entities keyed by their numeric id — the primary maps
  are never range-scanned, so only point get/insert/remove semantics matter;
* each secondary index map (CHAT_MESSAGE_CONVERSATION_INDEX,
  CONVERSATION_USER_INDEX, USER_PRINCIPAL_INDEX) stores unit values, so it is
  modelled as a list of keys kept sorted by the map's key order; a range scan
  is a filter over the sorted list, which reproduces the ascending iteration
  order of the B-tree.

Machine integers (u64) are modelled as `Nat`.  Where overflow matters the
release-mode wrapping semantics is made explicit with `% 2^64`
(`Timestamp::MAX` wrap in `ConversationUserIndexRepository::find`, counter
increment in `SerialIdRepository::next_id`).  Rust `saturating_sub 1` is
exactly `Nat` truncated subtraction.  `Principal` is modelled as an opaque
`Nat`.  Fallible repository operations return `Except RepositoryError`
together with the post state.
-/

namespace ICV

/-- u64::MAX, the largest representable id / timestamp. -/
def UMAX : Nat := 18446744073709551615

/-- 2^64, the modulus of u64 arithmetic. -/
def U64MOD : Nat := 18446744073709551616

/-- Roles enum from entities.rs. -/
inductive Roles where
  | system
  | user
  | assistant
deriving DecidableEq, Repr

/-- Message entity. -/
structure Message where
  id : Nat
  conversation : Nat
  content : String
  timestamp : Nat
  role : Roles
deriving DecidableEq, Repr

/-- Conversation entity. -/
structure Conversation where
  id : Nat
  user : Nat
  updated_at : Nat
  name : String
deriving DecidableEq, Repr

/-- User entity; `identity` models the opaque Principal. -/
structure User where
  id : Nat
  fullname : String
  identity : Nat
  resume : String
deriving DecidableEq, Repr

/-- RepositoryError enum from entities.rs. -/
inductive RepositoryError where
  | NotFound
  | Conflict
  | IllegalUpdate (reason : String)
deriving DecidableEq, Repr

/-! ### Primary store primitives (point operations of StableBTreeMap) -/

/-- Point lookup by numeric key, `map.get(&k)`. -/
def storeGet {V : Type} (key : V → Nat) (l : List V) (id : Nat) : Option V :=
  l.find? (fun v => key v == id)

/-- `map.insert(k, v)`: returns the previous value under the key and the new map. -/
def storeInsert {V : Type} (key : V → Nat) (v : V) (l : List V) :
    Option V × List V :=
  (storeGet key l (key v), v :: l.filter (fun x => key x != key v))

/-- `map.remove(&k)`: returns the removed value (if any) and the new map. -/
def storeRemove {V : Type} (key : V → Nat) (id : Nat) (l : List V) :
    Option V × List V :=
  (storeGet key l id, l.filter (fun x => key x != id))

/-! ### Secondary index primitives (unit-valued StableBTreeMap of keys) -/

/-- `map.insert(k, ())` on a key list sorted by the strict order `lt`. -/
def idxInsert {K : Type} [DecidableEq K] (lt : K → K → Bool) (k : K) :
    List K → List K
  | [] => [k]
  | x :: xs =>
    if lt k x then k :: x :: xs
    else if k = x then x :: xs
    else x :: idxInsert lt k xs

/-- `map.remove(&k)` on a key list. -/
def idxRemove {K : Type} [DecidableEq K] (k : K) (l : List K) : List K :=
  l.filter (fun x => x ≠ k)

/-- `map.range(lo..=hi)` over a key list sorted by the order whose reflexive
closure is `le`: on a sorted list, filtering by the inclusive bounds yields
exactly the ascending range scan. -/
def idxRange {K : Type} (le : K → K → Bool) (lo hi : K) (l : List K) : List K :=
  l.filter (fun k => le lo k && le k hi)

/-! ### The three index key orders

The B-tree compares composite keys lexicographically; a `Reverse` component
inverts the comparison of that component. -/

/-- Strict order of CHAT_MESSAGE_CONVERSATION_INDEX keys
`(ConversationId, Reverse MessageId)`. -/
def miLt (a b : Nat × Nat) : Bool :=
  a.1 < b.1 || (a.1 == b.1 && b.2 < a.2)

/-- Reflexive closure of `miLt`. -/
def miLe (a b : Nat × Nat) : Bool :=
  miLt a b || a == b

/-- Strict order of CONVERSATION_USER_INDEX keys
`(UserId, Reverse Timestamp, ConversationId)`. -/
def ciLt (a b : Nat × Nat × Nat) : Bool :=
  a.1 < b.1 || (a.1 == b.1 && (b.2.1 < a.2.1 || (a.2.1 == b.2.1 && a.2.2 < b.2.2)))

/-- Reflexive closure of `ciLt`. -/
def ciLe (a b : Nat × Nat × Nat) : Bool :=
  ciLt a b || a == b

/-- Strict order of USER_PRINCIPAL_INDEX keys `(Principal, UserId)`. -/
def uiLt (a b : Nat × Nat) : Bool :=
  a.1 < b.1 || (a.1 == b.1 && a.2 < b.2)

/-- Reflexive closure of `uiLt`. -/
def uiLe (a b : Nat × Nat) : Bool :=
  uiLt a b || a == b

/-! ### Index keys derived from entities (`add_indexes` / `remove_indexes`) -/

/-- Index key of a message: `(value.conversation, Reverse(value.id))`. -/
def msgKey (m : Message) : Nat × Nat := (m.conversation, m.id)

/-- Index key of a conversation: `(conv.user, Reverse(conv.updated_at), conv.id)`. -/
def convKey (c : Conversation) : Nat × Nat × Nat := (c.user, c.updated_at, c.id)

/-- Index key of a user: `(value.identity, value.id)`. -/
def userKey (u : User) : Nat × Nat := (u.identity, u.id)

/-! ### The composed write patterns of IndexedRepository -/

/-- `IndexedRepository::save_indexes(value, old_value)`: remove the old
value's index key if a previous value existed, then add the new value's
index key. -/
def saveIndexes {V K : Type} [DecidableEq K] (ikey : V → K)
    (lt : K → K → Bool) (v : V) (old : Option V) (idx : List K) : List K :=
  idxInsert lt (ikey v)
    (match old with
      | some existing => idxRemove (ikey existing) idx
      | none => idx)

/-- Primary-store write followed by `save_indexes(value, prev)`. -/
def storeWrite {V K : Type} [DecidableEq K] (key : V → Nat) (ikey : V → K)
    (lt : K → K → Bool) (v : V) (store : List V) (idx : List K) :
    List V × List K :=
  let pr := storeInsert key v store
  (pr.2, saveIndexes ikey lt v pr.1 idx)

/-- Primary-store remove followed by `remove_indexes(old)` when a value was
removed (the delete pattern shared by all three repositories). -/
def storeErase {V K : Type} [DecidableEq K] (key : V → Nat) (ikey : V → K)
    (id : Nat) (store : List V) (idx : List K) :
    Option V × List V × List K :=
  let pr := storeRemove key id store
  match pr.1 with
  | none => (none, pr.2, idx)
  | some old => (some old, pr.2, idxRemove (ikey old) idx)

/-! ### Repository state

One record holding the three serial counters, the three primary stores and
the three secondary indexes of entities.rs. -/

structure RepoState where
  nextMsgId : Nat
  nextConvId : Nat
  nextUserId : Nat
  chatMessage : List Message
  conversation : List Conversation
  users : List User
  msgIdx : List (Nat × Nat)
  convIdx : List (Nat × Nat × Nat)
  userIdx : List (Nat × Nat)
deriving DecidableEq, Repr

/-- Fresh state: every `StableCell` counter is initialised to 1, every map is
empty. -/
def initState : RepoState :=
  { nextMsgId := 1
    nextConvId := 1
    nextUserId := 1
    chatMessage := []
    conversation := []
    users := []
    msgIdx := []
    convIdx := []
    userIdx := [] }

/-! ### SerialIdRepository -/

/-- `peek_next_id`: the next value without mutating. -/
def peekNextId (c : Nat) : Nat := c

/-- `next_id`: returns the current value and stores `id + 1` (u64 wrapping). -/
def nextIdOp (c : Nat) : Nat × Nat := (c, (c + 1) % U64MOD)

/-! ### MessageConversationIndexRepository -/

/-- `cursor.map_or(MessageId::MAX, |c| c.saturating_sub(1))`; `Nat`
subtraction is exactly `saturating_sub`. -/
def msgBoundOf : Option Nat → Nat
  | none => UMAX
  | some c => c - 1

/-- `MessageConversationIndexRepository::find`. -/
def msgIdxFind (idx : List (Nat × Nat)) (conversation : Nat)
    (cursor : Option Nat) (limit : Nat) : List Nat :=
  let last_id := msgBoundOf cursor
  let start := (conversation, last_id)
  let stop := (conversation, 1)
  let r := idxRange miLe start stop idx
  if limit == 0 then r.map (fun k => k.2)
  else (r.take limit).map (fun k => k.2)

/-! ### MessageRepository -/

/-- `MessageRepository::get`. -/
def msgGet (s : RepoState) (id : Nat) : Option Message :=
  storeGet Message.id s.chatMessage id

/-- `MessageRepository::insert`: assigns `next_id()` and the current
timestamp, writes the primary map, then `save_indexes(&msg, prev)`. -/
def msgInsert (s : RepoState) (now : Nat) (msg : Message) :
    Except RepositoryError Message × RepoState :=
  let m := { msg with id := s.nextMsgId, timestamp := now }
  let r := storeWrite Message.id msgKey miLt m s.chatMessage s.msgIdx
  (Except.ok m,
    { s with nextMsgId := (s.nextMsgId + 1) % U64MOD
             chatMessage := r.1
             msgIdx := r.2 })

/-- `MessageRepository::update`: always fails, messages are immutable. -/
def msgUpdate (s : RepoState) (_value : Message) :
    Except RepositoryError Message × RepoState :=
  (Except.error (RepositoryError.IllegalUpdate ("Message entity cannot be updated")), s)

/-- `MessageRepository::delete`. -/
def msgDelete (s : RepoState) (id : Nat) :
    Except RepositoryError Nat × RepoState :=
  let r := storeErase Message.id msgKey id s.chatMessage s.msgIdx
  match r.1 with
  | none =>
    (Except.error RepositoryError.NotFound,
      { s with chatMessage := r.2.1, msgIdx := r.2.2 })
  | some _ =>
    (Except.ok id, { s with chatMessage := r.2.1, msgIdx := r.2.2 })

/-- `MessageRepository::paged_list`: index-first query, dereference each id,
return the last returned id as the next cursor. -/
def msgPagedList (s : RepoState) (conversation : Nat) (cursor : Option Nat)
    (limit : Nat) : Option Nat × List Message :=
  let messages := (msgIdxFind s.msgIdx conversation cursor limit).filterMap
    (fun id => msgGet s id)
  (messages.getLast?.map (fun m => m.id), messages)

/-- One step of `delete_by_conversation`: delete the id, keep it if the
delete succeeded (`filter_map(|id| self.delete(id).ok())`). -/
def delStep (acc : List Nat × RepoState) (id : Nat) : List Nat × RepoState :=
  let r := msgDelete acc.2 id
  match r.1 with
  | Except.ok d => (acc.1 ++ [d], r.2)
  | Except.error _ => (acc.1, r.2)

/-- `MessageRepository::delete_by_conversation`. -/
def msgDeleteByConversation (s : RepoState) (conversation : Nat) :
    Except RepositoryError (List Nat) × RepoState :=
  let res := (msgIdxFind s.msgIdx conversation none 0).foldl delStep ([], s)
  (Except.ok res.1, res.2)

/-! ### ConversationUserIndexRepository -/

/-- `cursor.map_or(Timestamp::MAX, |ts| ts - 1)`; u64 release-mode
subtraction wraps, made explicit with `% 2^64`. -/
def convBoundOf : Option Nat → Nat
  | none => UMAX
  | some ts => (ts + UMAX) % U64MOD

/-- `ConversationUserIndexRepository::find`. -/
def convIdxFind (idx : List (Nat × Nat × Nat)) (user_id : Nat)
    (cursor : Option Nat) (limit : Nat) : List Nat :=
  let ts := convBoundOf cursor
  let start := (user_id, ts, 0)
  let stop := (user_id, 0, UMAX)
  let r := idxRange ciLe start stop idx
  if limit == 0 then r.map (fun k => k.2.2)
  else (r.take limit).map (fun k => k.2.2)

/-! ### ConversationRepository -/

/-- `ConversationRepository::get`. -/
def convGet (s : RepoState) (id : Nat) : Option Conversation :=
  storeGet Conversation.id s.conversation id

/-- `ConversationRepository::insert`: assigns `next_id()` and refreshes
`updated_at`, writes the primary map, then `save_indexes`. -/
def convInsert (s : RepoState) (now : Nat) (conversation : Conversation) :
    Except RepositoryError Conversation × RepoState :=
  let c := { conversation with id := s.nextConvId, updated_at := now }
  let r := storeWrite Conversation.id convKey ciLt c s.conversation s.convIdx
  (Except.ok c,
    { s with nextConvId := (s.nextConvId + 1) % U64MOD
             conversation := r.1
             convIdx := r.2 })

/-- `ConversationRepository::update`: owner pinning before any mutation,
then refresh `updated_at`, write primary, `save_indexes`. -/
def convUpdate (s : RepoState) (now : Nat) (conversation : Conversation) :
    Except RepositoryError Conversation × RepoState :=
  match convGet s conversation.id with
  | none => (Except.error RepositoryError.NotFound, s)
  | some old_conv =>
    if old_conv.user ≠ conversation.user then
      (Except.error (RepositoryError.IllegalUpdate ("User is different")), s)
    else
      let c := { conversation with updated_at := now }
      let r := storeWrite Conversation.id convKey ciLt c s.conversation s.convIdx
      (Except.ok c, { s with conversation := r.1, convIdx := r.2 })

/-- `ConversationRepository::delete`. -/
def convDelete (s : RepoState) (id : Nat) :
    Except RepositoryError Nat × RepoState :=
  let r := storeErase Conversation.id convKey id s.conversation s.convIdx
  match r.1 with
  | none =>
    (Except.error RepositoryError.NotFound,
      { s with conversation := r.2.1, convIdx := r.2.2 })
  | some _ =>
    (Except.ok id, { s with conversation := r.2.1, convIdx := r.2.2 })

/-- `ConversationRepository::upsert`. -/
def convUpsert (s : RepoState) (now : Nat) (conversation : Conversation) :
    Except RepositoryError Conversation × RepoState :=
  match convGet s conversation.id with
  | some _ => convUpdate s now conversation
  | none => convInsert s now conversation

/-- `ConversationRepository::paged_list`.  Note: the source returns
`conv.last().map(|m| m.id)` as the next cursor, i.e. the id (not the
`updated_at` rank) of the last conversation. -/
def convPagedList (s : RepoState) (user_id : Nat) (cursor : Option Nat)
    (limit : Nat) : Option Nat × List Conversation :=
  let conv := (convIdxFind s.convIdx user_id cursor limit).filterMap
    (fun id => convGet s id)
  (conv.getLast?.map (fun m => m.id), conv)

/-! ### UserIdentityIndexRepository -/

/-- `UserIdentityIndexRepository::find`: full range `(principal, 1)` to
`(principal, UserId::MAX)`, cursor and limit ignored. -/
def userIdxFind (idx : List (Nat × Nat)) (principal : Nat)
    (_cursor : Option Nat) (_limit : Nat) : List Nat :=
  (idxRange uiLe (principal, 1) (principal, UMAX) idx).map (fun k => k.2)

/-! ### UserRepository -/

/-- `UserRepository::get`. -/
def userGet (s : RepoState) (id : Nat) : Option User :=
  storeGet User.id s.users id

/-- `UserRepository::insert`: assigns `next_id()`, writes primary,
`save_indexes`. -/
def userInsert (s : RepoState) (user : User) :
    Except RepositoryError User × RepoState :=
  let u := { user with id := s.nextUserId }
  let r := storeWrite User.id userKey uiLt u s.users s.userIdx
  (Except.ok u,
    { s with nextUserId := (s.nextUserId + 1) % U64MOD
             users := r.1
             userIdx := r.2 })

/-- `UserRepository::update`. -/
def userUpdate (s : RepoState) (user : User) :
    Except RepositoryError User × RepoState :=
  match userGet s user.id with
  | none => (Except.error RepositoryError.NotFound, s)
  | some _ =>
    let r := storeWrite User.id userKey uiLt user s.users s.userIdx
    (Except.ok user, { s with users := r.1, userIdx := r.2 })

/-- `UserRepository::delete`. -/
def userDelete (s : RepoState) (id : Nat) :
    Except RepositoryError Nat × RepoState :=
  let r := storeErase User.id userKey id s.users s.userIdx
  match r.1 with
  | none =>
    (Except.error RepositoryError.NotFound,
      { s with users := r.2.1, userIdx := r.2.2 })
  | some _ =>
    (Except.ok id, { s with users := r.2.1, userIdx := r.2.2 })

/-- `UserRepository::get_user` (IdentityProvider): full identity-index scan,
dereference, take the last live match. -/
def getUser (s : RepoState) (identity : Nat) : Option User :=
  ((userIdxFind s.userIdx identity none 0).filterMap
    (fun id => userGet s id)).getLast?

/-! ### Well-formedness of a repository state -/

/-- The index content is exactly the set of keys derived from the entities in
the primary store: every index entry has an owning entity, and every entity
has its index entry. -/
@[reducible]
def listCoherent {V K : Type} (ikey : V → K) (store : List V) (idx : List K) :
    Prop :=
  (∀ k ∈ idx, ∃ v ∈ store, k = ikey v) ∧ (∀ v ∈ store, ikey v ∈ idx)

/-- A key list sorted strictly by `lt` (the B-tree key order). -/
@[reducible]
def SortedBy {K : Type} (lt : K → K → Bool) (l : List K) : Prop :=
  List.Pairwise (fun a b => lt a b = true) l

/-- Exact index/store coherence for all three entity kinds. -/
@[reducible]
def Coherent (s : RepoState) : Prop :=
  listCoherent msgKey s.chatMessage s.msgIdx ∧
  listCoherent convKey s.conversation s.convIdx ∧
  listCoherent userKey s.users s.userIdx

/-- Well-formed repository state: coherent indexes, duplicate-free primary
ids, and each index sorted by its key order. -/
@[reducible]
def Inv (s : RepoState) : Prop :=
  Coherent s ∧
  (s.chatMessage.map Message.id).Nodup ∧
  (s.conversation.map Conversation.id).Nodup ∧
  (s.users.map User.id).Nodup ∧
  SortedBy miLt s.msgIdx ∧
  SortedBy ciLt s.convIdx ∧
  SortedBy uiLt s.userIdx

/-! ### Concrete states used in scenario theorems -/

/-- A user-role message for conversation `c`; id and timestamp are
placeholders, the repository overwrites both. -/
def mkMsg (c : Nat) : Message :=
  { id := 0, conversation := c, content := "m", timestamp := 0, role := Roles.user }

/-- Insert a batch of messages, each given as (conversation, timestamp). -/
def insertMsgs (s : RepoState) : List (Nat × Nat) → RepoState
  | [] => s
  | (c, t) :: rest => insertMsgs (msgInsert s t (mkMsg c)).2 rest

/-- The state of the spec scenario: 10 messages inserted into conversation 1
with timestamps 1..10; the repository assigns them ids 1..10. -/
def s10 : RepoState :=
  insertMsgs initState ((List.range 10).map (fun i => (1, i + 1)))

/-- A state with one conversation whose id (1) differs from its
`updated_at` (100): inserted at timestamp 100 into the fresh state. -/
def sC2 : RepoState :=
  (convInsert initState 100 { id := 0, user := 1, updated_at := 0, name := "a" }).2

/-- A state with two users sharing identity 5 (the repository assigns them
ids 1 and 2). -/
def sC9 : RepoState :=
  (userInsert
    (userInsert initState
      { id := 0, fullname := "a", identity := 5, resume := "r" }).2
    { id := 0, fullname := "b", identity := 5, resume := "r" }).2

/-! ### Paged-scroll iteration (the repeated-call scenario of the spec) -/

/-- Repeatedly call `paged_list`, feeding the returned next cursor back in,
until an empty page; concatenate the pages.  `fuel` bounds the number of
calls. -/
def collectPages (s : RepoState) (c k : Nat) : Nat → Option Nat → List Message
  | 0, _ => []
  | Nat.succ fuel, cur =>
    let r := msgPagedList s c cur k
    if r.2.isEmpty then [] else r.2 ++ collectPages s c k fuel r.1

/-- The conversation-`c` column of the message index (keys in index order,
i.e. descending message id). -/
def convKeys (s : RepoState) (c : Nat) : List (Nat × Nat) :=
  s.msgIdx.filter (fun k => k.1 == c)

/-- The conversation-`c` column of the message index: message ids in index
order (descending). -/
def descIdsOf (s : RepoState) (c : Nat) : List Nat :=
  (convKeys s c).map (fun k => k.2)

/-- The part of the conversation-`c` index column still below the cursor
bound: exactly the keys a cursor-`cur` range scan visits. -/
def msgRestKeys (s : RepoState) (c : Nat) (cur : Option Nat) : List (Nat × Nat) :=
  (convKeys s c).filter (fun x => decide (x.2 ≤ msgBoundOf cur))

/-! ## Lemmas: the three key orders are strict total orders -/

theorem miLt_trans (a b c : Nat × Nat) (hab : miLt a b = true)
    (hbc : miLt b c = true) : miLt a c = true := by
  simp only [miLt, Bool.or_eq_true, Bool.and_eq_true, decide_eq_true_eq,
    beq_iff_eq] at *
  omega

theorem miLt_total (a b : Nat × Nat) (h : a ≠ b) :
    miLt a b = true ∨ miLt b a = true := by
  rcases a with ⟨a1, a2⟩
  rcases b with ⟨b1, b2⟩
  simp only [ne_eq, Prod.mk.injEq, not_and] at h
  simp only [miLt, Bool.or_eq_true, Bool.and_eq_true, decide_eq_true_eq,
    beq_iff_eq]
  by_cases h1 : a1 = b1
  · subst h1
    have := h rfl
    omega
  · omega

theorem ciLt_trans (a b c : Nat × Nat × Nat) (hab : ciLt a b = true)
    (hbc : ciLt b c = true) : ciLt a c = true := by
  simp only [ciLt, Bool.or_eq_true, Bool.and_eq_true, decide_eq_true_eq,
    beq_iff_eq] at *
  omega

theorem ciLt_total (a b : Nat × Nat × Nat) (h : a ≠ b) :
    ciLt a b = true ∨ ciLt b a = true := by
  rcases a with ⟨a1, a2, a3⟩
  rcases b with ⟨b1, b2, b3⟩
  simp only [ne_eq, Prod.mk.injEq, not_and] at h
  simp only [ciLt, Bool.or_eq_true, Bool.and_eq_true, decide_eq_true_eq,
    beq_iff_eq]
  by_cases h1 : a1 = b1
  · subst h1
    by_cases h2 : a2 = b2
    · subst h2
      have := h rfl rfl
      omega
    · omega
  · omega

theorem uiLt_trans (a b c : Nat × Nat) (hab : uiLt a b = true)
    (hbc : uiLt b c = true) : uiLt a c = true := by
  simp only [uiLt, Bool.or_eq_true, Bool.and_eq_true, decide_eq_true_eq,
    beq_iff_eq] at *
  omega

theorem uiLt_total (a b : Nat × Nat) (h : a ≠ b) :
    uiLt a b = true ∨ uiLt b a = true := by
  rcases a with ⟨a1, a2⟩
  rcases b with ⟨b1, b2⟩
  simp only [ne_eq, Prod.mk.injEq, not_and] at h
  simp only [uiLt, Bool.or_eq_true, Bool.and_eq_true, decide_eq_true_eq,
    beq_iff_eq]
  by_cases h1 : a1 = b1
  · subst h1
    have := h rfl
    omega
  · omega

/-! ## Lemmas: index-list primitives -/

theorem mem_idxInsert {K : Type} [DecidableEq K] (lt : K → K → Bool) (k y : K)
    (l : List K) : y ∈ idxInsert lt k l ↔ y = k ∨ y ∈ l := by
  induction l with
  | nil => simp [idxInsert]
  | cons x xs ih =>
    simp only [idxInsert]
    split
    · simp only [List.mem_cons]
      try tauto
    · split
      · rename_i heq
        subst heq
        simp only [List.mem_cons]
        try tauto
      · simp only [List.mem_cons, ih]
        try tauto

theorem mem_idxRemove {K : Type} [DecidableEq K] (k y : K) (l : List K) :
    y ∈ idxRemove k l ↔ y ∈ l ∧ y ≠ k := by
  simp [idxRemove, List.mem_filter]

theorem sortedBy_idxInsert {K : Type} [DecidableEq K] (lt : K → K → Bool)
    (htr : ∀ a b c, lt a b = true → lt b c = true → lt a c = true)
    (htot : ∀ a b, a ≠ b → lt a b = true ∨ lt b a = true)
    (k : K) (l : List K) (h : SortedBy lt l) :
    SortedBy lt (idxInsert lt k l) := by
  induction l with
  | nil =>
    simp [idxInsert, SortedBy]
  | cons x xs ih =>
    rcases List.pairwise_cons.mp h with ⟨hx, hxs⟩
    simp only [idxInsert]
    split
    · rename_i hlt
      refine List.pairwise_cons.mpr ⟨?_, h⟩
      intro y hy
      rcases List.mem_cons.mp hy with rfl | hy
      · exact hlt
      · exact htr _ _ _ hlt (hx y hy)
    · split
      · exact h
      · rename_i hnlt hne
        refine List.pairwise_cons.mpr ⟨?_, ih hxs⟩
        intro y hy
        rcases (mem_idxInsert lt k y xs).mp hy with heq | hy
        · subst heq
          rcases htot y x hne with hkx | hxk
          · exact absurd hkx hnlt
          · exact hxk
        · exact hx y hy

theorem sortedBy_idxRemove {K : Type} [DecidableEq K] (lt : K → K → Bool)
    (k : K) (l : List K) (h : SortedBy lt l) :
    SortedBy lt (idxRemove k l) :=
  List.Pairwise.filter _ h

/-! ## Lemmas: primary-store primitives -/

theorem storeGet_eq_none {V : Type} (key : V → Nat) (l : List V) (id : Nat) :
    storeGet key l id = none ↔ ∀ v ∈ l, key v ≠ id := by
  simp [storeGet, List.find?_eq_none]

theorem storeGet_some {V : Type} (key : V → Nat) (l : List V) (id : Nat)
    (v : V) (h : storeGet key l id = some v) : v ∈ l ∧ key v = id := by
  refine ⟨List.mem_of_find?_eq_some h, ?_⟩
  have := List.find?_some h
  simpa using this

theorem storeGet_mem {V : Type} (key : V → Nat) (l : List V) (v : V)
    (hnd : (l.map key).Nodup) (hv : v ∈ l) :
    storeGet key l (key v) = some v := by
  induction l with
  | nil => cases hv
  | cons x xs ih =>
    rcases List.nodup_cons.mp hnd with ⟨hx, hxs⟩
    by_cases hkey : key x = key v
    · have hx_eq : x = v := by
        rcases List.mem_cons.mp hv with rfl | hv
        · rfl
        · exact absurd (hkey ▸ List.mem_map_of_mem key hv) hx
      subst hx_eq
      simp [storeGet, List.find?]
    · have hv' : v ∈ xs := by
        rcases List.mem_cons.mp hv with rfl | hv
        · exact absurd rfl hkey
        · exact hv
      have hrec : storeGet key xs (key v) = some v := ih hxs hv'
      have hb : (key x == key v) = false := by
        simp [hkey]
      simpa [storeGet, List.find?, hb] using hrec

theorem nodup_key_inj {V : Type} (key : V → Nat) (l : List V)
    (hnd : (l.map key).Nodup) (x y : V) (hx : x ∈ l) (hy : y ∈ l)
    (hkey : key x = key y) : x = y := by
  induction l with
  | nil => cases hx
  | cons z zs ih =>
    rcases List.nodup_cons.mp hnd with ⟨hz, hzs⟩
    rcases List.mem_cons.mp hx with hxz | hx2
    · rcases List.mem_cons.mp hy with hyz | hy2
      · rw [hxz, hyz]
      · exfalso
        apply hz
        rw [hxz] at hkey
        rw [hkey]
        exact List.mem_map_of_mem key hy2
    · rcases List.mem_cons.mp hy with hyz | hy2
      · exfalso
        apply hz
        rw [hyz] at hkey
        rw [← hkey]
        exact List.mem_map_of_mem key hx2
      · exact ih hzs hx2 hy2

/-! ## Lemmas: the primary-write plus save_indexes pattern -/

theorem mem_storeWrite_store {V K : Type} [DecidableEq K] (key : V → Nat)
    (ikey : V → K) (lt : K → K → Bool) (v : V) (store : List V)
    (idx : List K) (x : V) :
    x ∈ (storeWrite key ikey lt v store idx).1 ↔
      x = v ∨ (x ∈ store ∧ key x ≠ key v) := by
  simp [storeWrite, storeInsert, List.mem_filter, bne_iff_ne]

theorem storeWrite_idx_eq {V K : Type} [DecidableEq K] (key : V → Nat)
    (ikey : V → K) (lt : K → K → Bool) (v : V) (store : List V)
    (idx : List K) :
    (storeWrite key ikey lt v store idx).2 =
      saveIndexes ikey lt v (storeGet key store (key v)) idx := rfl

theorem mem_storeWrite_idx {V K : Type} [DecidableEq K] (key : V → Nat)
    (ikey : V → K) (lt : K → K → Bool) (v : V) (store : List V)
    (idx : List K)
    (hik : ∀ a b : V, ikey a = ikey b → key a = key b)
    (hnd : (store.map key).Nodup)
    (hco : listCoherent ikey store idx) (k : K) :
    k ∈ (storeWrite key ikey lt v store idx).2 ↔
      k = ikey v ∨ ∃ x, x ∈ store ∧ key x ≠ key v ∧ k = ikey x := by
  rcases hco with ⟨hidx, hstore⟩
  rw [storeWrite_idx_eq]
  rcases hget : storeGet key store (key v) with _ | old
  · have hnone := (storeGet_eq_none key store (key v)).mp hget
    rw [saveIndexes, mem_idxInsert]
    constructor
    · rintro (rfl | hk)
      · exact Or.inl rfl
      · rcases hidx k hk with ⟨x, hx, rfl⟩
        exact Or.inr ⟨x, hx, hnone x hx, rfl⟩
    · rintro (rfl | ⟨x, hx, hne, rfl⟩)
      · exact Or.inl rfl
      · exact Or.inr (hstore x hx)
  · rcases storeGet_some key store (key v) old hget with ⟨hold_mem, hold_key⟩
    rw [saveIndexes, mem_idxInsert, mem_idxRemove]
    constructor
    · rintro (rfl | ⟨hk, hne_old⟩)
      · exact Or.inl rfl
      · rcases hidx k hk with ⟨x, hx, rfl⟩
        refine Or.inr ⟨x, hx, ?_, rfl⟩
        intro hxkey
        have hxold : x = old :=
          nodup_key_inj key store hnd x old hx hold_mem (hxkey.trans hold_key.symm)
        exact hne_old (by rw [hxold])
    · rintro (rfl | ⟨x, hx, hne, rfl⟩)
      · exact Or.inl rfl
      · refine Or.inr ⟨hstore x hx, ?_⟩
        intro hik_eq
        exact hne (by rw [hik x old hik_eq, hold_key])

theorem storeWrite_coherent {V K : Type} [DecidableEq K] (key : V → Nat)
    (ikey : V → K) (lt : K → K → Bool) (v : V) (store : List V)
    (idx : List K)
    (hik : ∀ a b : V, ikey a = ikey b → key a = key b)
    (hnd : (store.map key).Nodup)
    (hco : listCoherent ikey store idx) :
    listCoherent ikey (storeWrite key ikey lt v store idx).1
      (storeWrite key ikey lt v store idx).2 := by
  constructor
  · intro k hk
    rcases (mem_storeWrite_idx key ikey lt v store idx hik hnd hco k).mp hk with
      rfl | ⟨x, hx, hne, rfl⟩
    · exact ⟨v, (mem_storeWrite_store key ikey lt v store idx v).mpr (Or.inl rfl), rfl⟩
    · exact ⟨x, (mem_storeWrite_store key ikey lt v store idx x).mpr (Or.inr ⟨hx, hne⟩), rfl⟩
  · intro x hx
    rcases (mem_storeWrite_store key ikey lt v store idx x).mp hx with heq | ⟨hx2, hne⟩
    · exact (mem_storeWrite_idx key ikey lt v store idx hik hnd hco _).mpr
        (Or.inl (by rw [heq]))
    · exact (mem_storeWrite_idx key ikey lt v store idx hik hnd hco _).mpr
        (Or.inr ⟨x, hx2, hne, rfl⟩)

theorem storeWrite_nodup {V K : Type} [DecidableEq K] (key : V → Nat)
    (ikey : V → K) (lt : K → K → Bool) (v : V) (store : List V)
    (idx : List K) (hnd : (store.map key).Nodup) :
    ((storeWrite key ikey lt v store idx).1.map key).Nodup := by
  have h1 : (storeWrite key ikey lt v store idx).1 =
      v :: store.filter (fun x => key x != key v) := rfl
  rw [h1]
  simp only [List.map_cons, List.nodup_cons]
  constructor
  · intro hmem
    rcases List.mem_map.mp hmem with ⟨x, hx, hkey⟩
    rcases List.mem_filter.mp hx with ⟨_, hne⟩
    exact (bne_iff_ne.mp hne) hkey
  · exact ((List.filter_sublist store).map key).nodup hnd

theorem storeWrite_sorted {V K : Type} [DecidableEq K] (key : V → Nat)
    (ikey : V → K) (lt : K → K → Bool) (v : V) (store : List V)
    (idx : List K)
    (htr : ∀ a b c, lt a b = true → lt b c = true → lt a c = true)
    (htot : ∀ a b, a ≠ b → lt a b = true ∨ lt b a = true)
    (hs : SortedBy lt idx) :
    SortedBy lt (storeWrite key ikey lt v store idx).2 := by
  rw [storeWrite_idx_eq]
  rcases storeGet key store (key v) with _ | old
  · exact sortedBy_idxInsert lt htr htot _ _ hs
  · exact sortedBy_idxInsert lt htr htot _ _ (sortedBy_idxRemove lt _ _ hs)

/-! ## Lemmas: the primary-remove plus remove_indexes pattern -/

theorem mem_storeErase_store {V K : Type} [DecidableEq K] (key : V → Nat)
    (ikey : V → K) (id : Nat) (store : List V) (idx : List K) (x : V) :
    x ∈ (storeErase key ikey id store idx).2.1 ↔ x ∈ store ∧ key x ≠ id := by
  have h : (storeErase key ikey id store idx).2.1 =
      store.filter (fun x => key x != id) := by
    rcases hget : storeGet key store id with _ | old <;>
      simp [storeErase, storeRemove, hget]
  rw [h]
  simp [List.mem_filter, bne_iff_ne]

theorem mem_storeErase_idx {V K : Type} [DecidableEq K] (key : V → Nat)
    (ikey : V → K) (id : Nat) (store : List V) (idx : List K)
    (hik : ∀ a b : V, ikey a = ikey b → key a = key b)
    (hnd : (store.map key).Nodup)
    (hco : listCoherent ikey store idx) (k : K) :
    k ∈ (storeErase key ikey id store idx).2.2 ↔
      ∃ x, x ∈ store ∧ key x ≠ id ∧ k = ikey x := by
  rcases hco with ⟨hidx, hstore⟩
  rcases hget : storeGet key store id with _ | old
  · have hnone := (storeGet_eq_none key store id).mp hget
    have h : (storeErase key ikey id store idx).2.2 = idx := by
      simp [storeErase, storeRemove, hget]
    rw [h]
    constructor
    · intro hk
      rcases hidx k hk with ⟨x, hx, rfl⟩
      exact ⟨x, hx, hnone x hx, rfl⟩
    · rintro ⟨x, hx, _, rfl⟩
      exact hstore x hx
  · rcases storeGet_some key store id old hget with ⟨hold_mem, hold_key⟩
    have h : (storeErase key ikey id store idx).2.2 =
        idxRemove (ikey old) idx := by
      simp [storeErase, storeRemove, hget]
    rw [h, mem_idxRemove]
    constructor
    · rintro ⟨hk, hne_old⟩
      rcases hidx k hk with ⟨x, hx, rfl⟩
      refine ⟨x, hx, ?_, rfl⟩
      intro hxkey
      have hxold : x = old :=
        nodup_key_inj key store hnd x old hx hold_mem (hxkey.trans hold_key.symm)
      exact hne_old (by rw [hxold])
    · rintro ⟨x, hx, hne, rfl⟩
      refine ⟨hstore x hx, ?_⟩
      intro hik_eq
      exact hne (by rw [hik x old hik_eq, hold_key])

theorem storeErase_coherent {V K : Type} [DecidableEq K] (key : V → Nat)
    (ikey : V → K) (id : Nat) (store : List V) (idx : List K)
    (hik : ∀ a b : V, ikey a = ikey b → key a = key b)
    (hnd : (store.map key).Nodup)
    (hco : listCoherent ikey store idx) :
    listCoherent ikey (storeErase key ikey id store idx).2.1
      (storeErase key ikey id store idx).2.2 := by
  constructor
  · intro k hk
    rcases (mem_storeErase_idx key ikey id store idx hik hnd hco k).mp hk with
      ⟨x, hx, hne, rfl⟩
    exact ⟨x, (mem_storeErase_store key ikey id store idx x).mpr ⟨hx, hne⟩, rfl⟩
  · intro x hx
    rcases (mem_storeErase_store key ikey id store idx x).mp hx with ⟨hx, hne⟩
    exact (mem_storeErase_idx key ikey id store idx hik hnd hco _).mpr
      ⟨x, hx, hne, rfl⟩

theorem storeErase_nodup {V K : Type} [DecidableEq K] (key : V → Nat)
    (ikey : V → K) (id : Nat) (store : List V) (idx : List K)
    (hnd : (store.map key).Nodup) :
    ((storeErase key ikey id store idx).2.1.map key).Nodup := by
  have h : (storeErase key ikey id store idx).2.1 =
      store.filter (fun x => key x != id) := by
    rcases hget : storeGet key store id with _ | old <;>
      simp [storeErase, storeRemove, hget]
  rw [h]
  exact ((List.filter_sublist store).map key).nodup hnd

theorem storeErase_sorted {V K : Type} [DecidableEq K] (key : V → Nat)
    (ikey : V → K) (id : Nat) (store : List V) (idx : List K)
    (lt : K → K → Bool) (hs : SortedBy lt idx) :
    SortedBy lt (storeErase key ikey id store idx).2.2 := by
  rcases hget : storeGet key store id with _ | old
  · have h : (storeErase key ikey id store idx).2.2 = idx := by
      simp [storeErase, storeRemove, hget]
    rw [h]
    exact hs
  · have h : (storeErase key ikey id store idx).2.2 = idxRemove (ikey old) idx := by
      simp [storeErase, storeRemove, hget]
    rw [h]
    exact sortedBy_idxRemove lt _ _ hs

theorem storeErase_none {V K : Type} [DecidableEq K] (key : V → Nat)
    (ikey : V → K) (id : Nat) (store : List V) (idx : List K)
    (hget : storeGet key store id = none) :
    storeErase key ikey id store idx = (none, store, idx) := by
  have hfil : store.filter (fun x => key x != id) = store := by
    apply List.filter_eq_self.mpr
    intro a ha
    exact bne_iff_ne.mpr ((storeGet_eq_none key store id).mp hget a ha)
  simp [storeErase, storeRemove, hget, hfil]

/-! ## Lemmas: the repository operations preserve well-formedness -/

theorem msgKey_inj (a b : Message) (h : msgKey a = msgKey b) :
    Message.id a = Message.id b := congrArg Prod.snd h

theorem convKey_inj (a b : Conversation) (h : convKey a = convKey b) :
    Conversation.id a = Conversation.id b := congrArg (fun p => p.2.2) h

theorem userKey_inj (a b : User) (h : userKey a = userKey b) :
    User.id a = User.id b := congrArg Prod.snd h

theorem inv_msgInsert (s : RepoState) (now : Nat) (msg : Message)
    (h : Inv s) : Inv (msgInsert s now msg).2 := by
  obtain ⟨⟨hm, hc, hu⟩, hnm, hnc, hnu, hsm, hsc, hsu⟩ := h
  exact ⟨⟨storeWrite_coherent Message.id msgKey miLt
      { msg with id := s.nextMsgId, timestamp := now } s.chatMessage s.msgIdx
      msgKey_inj hnm hm, hc, hu⟩,
    storeWrite_nodup Message.id msgKey miLt
      { msg with id := s.nextMsgId, timestamp := now } s.chatMessage s.msgIdx hnm,
    hnc, hnu,
    storeWrite_sorted Message.id msgKey miLt
      { msg with id := s.nextMsgId, timestamp := now } s.chatMessage s.msgIdx
      miLt_trans miLt_total hsm, hsc, hsu⟩

theorem inv_msgUpdate (s : RepoState) (msg : Message) (h : Inv s) :
    Inv (msgUpdate s msg).2 := h

theorem msgDelete_state (s : RepoState) (id : Nat) :
    (msgDelete s id).2 =
      { s with
        chatMessage := (storeErase Message.id msgKey id s.chatMessage s.msgIdx).2.1
        msgIdx := (storeErase Message.id msgKey id s.chatMessage s.msgIdx).2.2 } := by
  rw [msgDelete]
  rcases (storeErase Message.id msgKey id s.chatMessage s.msgIdx).1 with _ | old <;> rfl

theorem inv_msgDelete (s : RepoState) (id : Nat) (h : Inv s) :
    Inv (msgDelete s id).2 := by
  obtain ⟨⟨hm, hc, hu⟩, hnm, hnc, hnu, hsm, hsc, hsu⟩ := h
  rw [msgDelete_state]
  exact ⟨⟨storeErase_coherent _ _ _ _ _ msgKey_inj hnm hm, hc, hu⟩,
    storeErase_nodup _ _ _ _ _ hnm, hnc, hnu,
    storeErase_sorted _ _ _ _ _ _ hsm, hsc, hsu⟩

theorem delStep_state (p : List Nat × RepoState) (id : Nat) :
    (delStep p id).2 = (msgDelete p.2 id).2 := by
  rw [delStep]
  rcases (msgDelete p.2 id).1 with _ | _ <;> rfl

theorem inv_foldDelete (ids : List Nat) :
    ∀ (acc : List Nat) (s : RepoState), Inv s →
      Inv ((ids.foldl delStep (acc, s)).2) := by
  induction ids with
  | nil =>
    intro acc s h
    exact h
  | cons id rest ih =>
    intro acc s h
    rw [List.foldl_cons]
    have h2 : Inv (delStep (acc, s) id).2 := by
      rw [delStep_state]
      exact inv_msgDelete s id h
    exact ih (delStep (acc, s) id).1 (delStep (acc, s) id).2 h2

theorem inv_msgDeleteByConversation (s : RepoState) (c : Nat) (h : Inv s) :
    Inv (msgDeleteByConversation s c).2 :=
  inv_foldDelete _ [] s h

theorem inv_convInsert (s : RepoState) (now : Nat) (c : Conversation)
    (h : Inv s) : Inv (convInsert s now c).2 := by
  obtain ⟨⟨hm, hc, hu⟩, hnm, hnc, hnu, hsm, hsc, hsu⟩ := h
  exact ⟨⟨hm, storeWrite_coherent Conversation.id convKey ciLt
      { c with id := s.nextConvId, updated_at := now } s.conversation s.convIdx
      convKey_inj hnc hc, hu⟩,
    hnm, storeWrite_nodup Conversation.id convKey ciLt
      { c with id := s.nextConvId, updated_at := now } s.conversation s.convIdx hnc,
    hnu,
    hsm, storeWrite_sorted Conversation.id convKey ciLt
      { c with id := s.nextConvId, updated_at := now } s.conversation s.convIdx
      ciLt_trans ciLt_total hsc, hsu⟩

theorem inv_convUpdate (s : RepoState) (now : Nat) (c : Conversation)
    (h : Inv s) : Inv (convUpdate s now c).2 := by
  rw [convUpdate]
  rcases convGet s c.id with _ | old
  · exact h
  · by_cases hne : old.user ≠ c.user
    · simp only [if_pos hne]
      exact h
    · simp only [if_neg hne]
      obtain ⟨⟨hm, hc, hu⟩, hnm, hnc, hnu, hsm, hsc, hsu⟩ := h
      exact ⟨⟨hm, storeWrite_coherent Conversation.id convKey ciLt
          { c with updated_at := now } s.conversation s.convIdx convKey_inj hnc hc, hu⟩,
        hnm, storeWrite_nodup Conversation.id convKey ciLt
          { c with updated_at := now } s.conversation s.convIdx hnc,
        hnu,
        hsm, storeWrite_sorted Conversation.id convKey ciLt
          { c with updated_at := now } s.conversation s.convIdx
          ciLt_trans ciLt_total hsc, hsu⟩

theorem convDelete_state (s : RepoState) (id : Nat) :
    (convDelete s id).2 =
      { s with
        conversation := (storeErase Conversation.id convKey id s.conversation s.convIdx).2.1
        convIdx := (storeErase Conversation.id convKey id s.conversation s.convIdx).2.2 } := by
  rw [convDelete]
  rcases (storeErase Conversation.id convKey id s.conversation s.convIdx).1 with _ | old <;> rfl

theorem inv_convDelete (s : RepoState) (id : Nat) (h : Inv s) :
    Inv (convDelete s id).2 := by
  obtain ⟨⟨hm, hc, hu⟩, hnm, hnc, hnu, hsm, hsc, hsu⟩ := h
  rw [convDelete_state]
  exact ⟨⟨hm, storeErase_coherent _ _ _ _ _ convKey_inj hnc hc, hu⟩,
    hnm, storeErase_nodup _ _ _ _ _ hnc, hnu,
    hsm, storeErase_sorted _ _ _ _ _ _ hsc, hsu⟩

theorem inv_convUpsert (s : RepoState) (now : Nat) (c : Conversation)
    (h : Inv s) : Inv (convUpsert s now c).2 := by
  rw [convUpsert]
  rcases convGet s c.id with _ | old
  · exact inv_convInsert s now c h
  · exact inv_convUpdate s now c h

theorem inv_userInsert (s : RepoState) (u : User) (h : Inv s) :
    Inv (userInsert s u).2 := by
  obtain ⟨⟨hm, hc, hu⟩, hnm, hnc, hnu, hsm, hsc, hsu⟩ := h
  exact ⟨⟨hm, hc, storeWrite_coherent User.id userKey uiLt
      { u with id := s.nextUserId } s.users s.userIdx userKey_inj hnu hu⟩,
    hnm, hnc, storeWrite_nodup User.id userKey uiLt
      { u with id := s.nextUserId } s.users s.userIdx hnu,
    hsm, hsc, storeWrite_sorted User.id userKey uiLt
      { u with id := s.nextUserId } s.users s.userIdx uiLt_trans uiLt_total hsu⟩

theorem inv_userUpdate (s : RepoState) (u : User) (h : Inv s) :
    Inv (userUpdate s u).2 := by
  rw [userUpdate]
  rcases userGet s u.id with _ | old
  · exact h
  · obtain ⟨⟨hm, hc, hu⟩, hnm, hnc, hnu, hsm, hsc, hsu⟩ := h
    exact ⟨⟨hm, hc, storeWrite_coherent User.id userKey uiLt
        u s.users s.userIdx userKey_inj hnu hu⟩,
      hnm, hnc, storeWrite_nodup User.id userKey uiLt u s.users s.userIdx hnu,
      hsm, hsc, storeWrite_sorted User.id userKey uiLt u s.users s.userIdx
        uiLt_trans uiLt_total hsu⟩

theorem userDelete_state (s : RepoState) (id : Nat) :
    (userDelete s id).2 =
      { s with
        users := (storeErase User.id userKey id s.users s.userIdx).2.1
        userIdx := (storeErase User.id userKey id s.users s.userIdx).2.2 } := by
  rw [userDelete]
  rcases (storeErase User.id userKey id s.users s.userIdx).1 with _ | old <;> rfl

theorem inv_userDelete (s : RepoState) (id : Nat) (h : Inv s) :
    Inv (userDelete s id).2 := by
  obtain ⟨⟨hm, hc, hu⟩, hnm, hnc, hnu, hsm, hsc, hsu⟩ := h
  rw [userDelete_state]
  exact ⟨⟨hm, hc, storeErase_coherent _ _ _ _ _ userKey_inj hnu hu⟩,
    hnm, hnc, storeErase_nodup _ _ _ _ _ hnu,
    hsm, hsc, storeErase_sorted _ _ _ _ _ _ hsu⟩

/-! ## Claim theorems -/

/-- C1: after any repository operation of MessageRepository,
ConversationRepository, or UserRepository returns (insert, update, upsert,
delete, delete_by_conversation), the secondary index content is exactly the
set of keys derived from the entities currently in the primary store: for
every stored message m, (m.conversation, Reverse m.id) is an index entry;
for every stored conversation c, (c.user, Reverse c.updated_at, c.id) is an
index entry; for every stored user u, (u.identity, u.id) is an index entry;
and no index entry exists whose corresponding entity is absent from the
primary store. -/
theorem claim_C1_index_coherence (s : RepoState) (h : Inv s) :
    (∀ now msg, Coherent (msgInsert s now msg).2) ∧
    (∀ msg, Coherent (msgUpdate s msg).2) ∧
    (∀ id, Coherent (msgDelete s id).2) ∧
    (∀ c, Coherent (msgDeleteByConversation s c).2) ∧
    (∀ now c, Coherent (convInsert s now c).2) ∧
    (∀ now c, Coherent (convUpdate s now c).2) ∧
    (∀ now c, Coherent (convUpsert s now c).2) ∧
    (∀ id, Coherent (convDelete s id).2) ∧
    (∀ u, Coherent (userInsert s u).2) ∧
    (∀ u, Coherent (userUpdate s u).2) ∧
    (∀ id, Coherent (userDelete s id).2) :=
  ⟨fun now msg => (inv_msgInsert s now msg h).1,
   fun msg => (inv_msgUpdate s msg h).1,
   fun id => (inv_msgDelete s id h).1,
   fun c => (inv_msgDeleteByConversation s c h).1,
   fun now c => (inv_convInsert s now c h).1,
   fun now c => (inv_convUpdate s now c h).1,
   fun now c => (inv_convUpsert s now c h).1,
   fun id => (inv_convDelete s id h).1,
   fun u => (inv_userInsert s u h).1,
   fun u => (inv_userUpdate s u h).1,
   fun id => (inv_userDelete s id h).1⟩

/-- C1 witness: the well-formed 10-message state stays exactly coherent
after a concrete delete. -/
theorem claim_C1_index_coherence_witness :
    Inv s10 ∧ Coherent (msgDelete s10 3).2 :=
  ⟨by decide, (claim_C1_index_coherence s10 (by decide)).2.2.1 3⟩

/-- C2 (counterexample to the stated cursor contract): with a single stored
conversation of id 1 and updated_at 100, paged_list returns next cursor
some 1 — the id of the last conversation returned — although the
updated_at rank of that conversation is 100. -/
theorem claim_C2_cursor_bug :
    ((convPagedList sC2 1 none 1).2.map Conversation.updated_at).getLast? = some 100 ∧
    (convPagedList sC2 1 none 1).1 = some 1 ∧
    (convPagedList sC2 1 none 1).1 ≠ some 100 := by decide

/-- C3: both paged queries are total for every cursor and limit; at the
edge cursor Some 0 the message query (saturating_sub) returns the empty
range and the conversation query (wrapping sub) coincides with the
no-cursor query. -/
theorem claim_C3_total_find (s : RepoState) (c u : Nat) (limit : Nat) :
    msgIdxFind s.msgIdx c (some 0) limit = [] ∧
    msgPagedList s c (some 0) limit = (none, []) ∧
    convIdxFind s.convIdx u (some 0) limit = convIdxFind s.convIdx u none limit ∧
    convPagedList s u (some 0) limit = convPagedList s u none limit := by
  have hmf : ∀ (idx : List (Nat × Nat)) (lim : Nat),
      msgIdxFind idx c (some 0) lim = [] := by
    intro idx lim
    have hr : idxRange miLe (c, msgBoundOf (some 0)) (c, 1) idx = [] := by
      apply List.filter_eq_nil_iff.mpr
      intro k hk
      simp only [msgBoundOf, miLe, miLt, Bool.or_eq_true, Bool.and_eq_true,
        decide_eq_true_eq, beq_iff_eq, Prod.mk.injEq, Bool.not_eq_true]
      rcases k with ⟨k1, k2⟩
      simp only [Bool.and_eq_true, Bool.or_eq_true, decide_eq_true_eq,
        beq_iff_eq, Prod.mk.injEq]
      omega
    simp only [msgIdxFind, hr]
    split <;> simp
  have hb : convBoundOf (some 0) = convBoundOf none := by decide
  have hcf : ∀ lim, convIdxFind s.convIdx u (some 0) lim =
      convIdxFind s.convIdx u none lim := by
    intro lim
    simp only [convIdxFind, hb]
  refine ⟨hmf s.msgIdx limit, ?_, hcf limit, ?_⟩
  · simp [msgPagedList, hmf]
  · simp [convPagedList, hcf]

/-- C4 counterexample: at the maximum u64 counter value the counter wraps
to 0, so the new peek is 0 and not old-peek + 1. -/
theorem claim_C4_counterexample :
    peekNextId (nextIdOp UMAX).2 ≠ peekNextId UMAX + 1 := by decide

/-- C4 (amended): for every counter value strictly below u64::MAX, next_id
returns the old peek and advances the counter by one, so that the new peek
is old-peek + 1; the initial value of every counter is 1. -/
theorem claim_C4_serial_id (c : Nat) (h : c < UMAX) :
    (nextIdOp c).1 = peekNextId c ∧
    peekNextId (nextIdOp c).2 = peekNextId c + 1 ∧
    initState.nextMsgId = 1 ∧ initState.nextConvId = 1 ∧
    initState.nextUserId = 1 := by
  refine ⟨rfl, ?_, rfl, rfl, rfl⟩
  show (c + 1) % U64MOD = c + 1
  apply Nat.mod_eq_of_lt
  unfold UMAX at h
  unfold U64MOD
  omega

/-- C4 witness at counter value 5. -/
theorem claim_C4_serial_id_witness :
    5 < UMAX ∧
    ((nextIdOp 5).1 = peekNextId 5 ∧
      peekNextId (nextIdOp 5).2 = peekNextId 5 + 1 ∧
      initState.nextMsgId = 1 ∧ initState.nextConvId = 1 ∧
      initState.nextUserId = 1) :=
  ⟨by decide, claim_C4_serial_id 5 (by decide)⟩

/-- C6: from the empty store, after inserting 10 messages into
conversation 1 (ids 1..10 assigned by the repository),
paged_list(1, None, 3) returns ids [10, 9, 8] with next cursor Some 8, and
paged_list(1, Some 8, 3) returns ids [7, 6, 5]. -/
theorem claim_C6_concrete_scenario :
    ((msgPagedList s10 1 none 3).2.map Message.id = [10, 9, 8]) ∧
    ((msgPagedList s10 1 none 3).1 = some 8) ∧
    ((msgPagedList s10 1 (some 8) 3).2.map Message.id = [7, 6, 5]) := by decide

/-- C7: for every criteria and cursor, a limit of exactly 0 returns the
full matching range (a limit at least the index size gives the same
result), while a limit n of at least 1 returns the first n of that range
and hence at most n results. -/
theorem claim_C7_limit_semantics (midx : List (Nat × Nat))
    (cidx : List (Nat × Nat × Nat)) (c u : Nat) (cursor : Option Nat)
    (n : Nat) (hn : 1 ≤ n) :
    msgIdxFind midx c cursor n = (msgIdxFind midx c cursor 0).take n ∧
    convIdxFind cidx u cursor n = (convIdxFind cidx u cursor 0).take n ∧
    (msgIdxFind midx c cursor n).length ≤ n ∧
    (convIdxFind cidx u cursor n).length ≤ n ∧
    (midx.length ≤ n → msgIdxFind midx c cursor n = msgIdxFind midx c cursor 0) ∧
    (cidx.length ≤ n → convIdxFind cidx u cursor n = convIdxFind cidx u cursor 0) := by
  have hn0 : n ≠ 0 := by omega
  have hne : (n == 0) = false := by simp [hn0]
  have hmsg : msgIdxFind midx c cursor n = (msgIdxFind midx c cursor 0).take n := by
    simp [msgIdxFind, hne, List.map_take]
  have hconv : convIdxFind cidx u cursor n = (convIdxFind cidx u cursor 0).take n := by
    simp [convIdxFind, hne, List.map_take]
  have hmlen : (msgIdxFind midx c cursor 0).length ≤ midx.length := by
    have hzero : msgIdxFind midx c cursor 0 =
        (idxRange miLe (c, msgBoundOf cursor) (c, 1) midx).map (fun k => k.2) := rfl
    rw [hzero, List.length_map, idxRange]
    exact List.length_filter_le _ _
  have hclen : (convIdxFind cidx u cursor 0).length ≤ cidx.length := by
    have hzero : convIdxFind cidx u cursor 0 =
        (idxRange ciLe (u, convBoundOf cursor, 0) (u, 0, UMAX) cidx).map
          (fun k => k.2.2) := rfl
    rw [hzero, List.length_map, idxRange]
    exact List.length_filter_le _ _
  refine ⟨hmsg, hconv, ?_, ?_, ?_, ?_⟩
  · rw [hmsg, List.length_take]
    exact inf_le_left
  · rw [hconv, List.length_take]
    exact inf_le_left
  · intro hlen
    rw [hmsg]
    exact List.take_of_length_le (le_trans hmlen hlen)
  · intro hlen
    rw [hconv]
    exact List.take_of_length_le (le_trans hclen hlen)

/-- C7 witness at a concrete three-entry message index and one-entry
conversation index with limit 2. -/
theorem claim_C7_limit_semantics_witness :
    1 ≤ 2 ∧
    (msgIdxFind [(1, 5), (1, 4), (1, 3)] 1 none 2 =
        (msgIdxFind [(1, 5), (1, 4), (1, 3)] 1 none 0).take 2 ∧
      convIdxFind [(1, 9, 1)] 1 none 2 = (convIdxFind [(1, 9, 1)] 1 none 0).take 2 ∧
      (msgIdxFind [(1, 5), (1, 4), (1, 3)] 1 none 2).length ≤ 2 ∧
      (convIdxFind [(1, 9, 1)] 1 none 2).length ≤ 2 ∧
      (([(1, 5), (1, 4), (1, 3)] : List (Nat × Nat)).length ≤ 2 →
        msgIdxFind [(1, 5), (1, 4), (1, 3)] 1 none 2 =
          msgIdxFind [(1, 5), (1, 4), (1, 3)] 1 none 0) ∧
      (([(1, 9, 1)] : List (Nat × Nat × Nat)).length ≤ 2 →
        convIdxFind [(1, 9, 1)] 1 none 2 = convIdxFind [(1, 9, 1)] 1 none 0)) :=
  ⟨by decide,
   claim_C7_limit_semantics [(1, 5), (1, 4), (1, 3)] [(1, 9, 1)] 1 1 none 2 (by decide)⟩

/-- C8: conversation update with a different owner fails with IllegalUpdate
and returns the state unchanged; update of an absent id fails with
NotFound and returns the state unchanged. -/
theorem claim_C8_owner_pinning (s : RepoState) (now : Nat) (c : Conversation) :
    (∀ old, convGet s c.id = some old → old.user ≠ c.user →
      convUpdate s now c =
        (Except.error (RepositoryError.IllegalUpdate ("User is different")), s)) ∧
    (convGet s c.id = none →
      convUpdate s now c = (Except.error RepositoryError.NotFound, s)) := by
  constructor
  · intro old hget hne
    rw [convUpdate, hget]
    simp [hne]
  · intro hget
    rw [convUpdate, hget]

/-- C8 witness: updating the stored conversation (id 1, owner 1) with
owner 2 fails with IllegalUpdate; updating absent id 5 fails NotFound. -/
theorem claim_C8_owner_pinning_witness :
    convUpdate sC2 7 { id := 1, user := 2, updated_at := 0, name := "b" } =
      (Except.error (RepositoryError.IllegalUpdate ("User is different")), sC2) ∧
    convUpdate sC2 7 { id := 5, user := 1, updated_at := 0, name := "b" } =
      (Except.error RepositoryError.NotFound, sC2) :=
  ⟨(claim_C8_owner_pinning sC2 7 { id := 1, user := 2, updated_at := 0, name := "b" }).1
      { id := 1, user := 1, updated_at := 100, name := "a" } (by decide) (by decide),
   (claim_C8_owner_pinning sC2 7 { id := 5, user := 1, updated_at := 0, name := "b" }).2
      (by decide)⟩

/-- C10: for each repository, delete of an id absent from the primary store
returns NotFound and leaves the whole state (primary stores and indexes)
unchanged. -/
theorem claim_C10_delete_not_found (s : RepoState) (id : Nat) :
    (msgGet s id = none →
      msgDelete s id = (Except.error RepositoryError.NotFound, s)) ∧
    (convGet s id = none →
      convDelete s id = (Except.error RepositoryError.NotFound, s)) ∧
    (userGet s id = none →
      userDelete s id = (Except.error RepositoryError.NotFound, s)) := by
  refine ⟨?_, ?_, ?_⟩
  · intro hget
    simp [msgDelete, storeErase_none Message.id msgKey id s.chatMessage s.msgIdx hget]
  · intro hget
    simp [convDelete, storeErase_none Conversation.id convKey id s.conversation s.convIdx hget]
  · intro hget
    simp [userDelete, storeErase_none User.id userKey id s.users s.userIdx hget]

/-- C10 witness: deleting absent message id 42 from the 10-message state
fails with NotFound and returns the state unchanged. -/
theorem claim_C10_delete_not_found_witness :
    msgGet s10 42 = none ∧
    msgDelete s10 42 = (Except.error RepositoryError.NotFound, s10) :=
  ⟨by decide, (claim_C10_delete_not_found s10 42).1 (by decide)⟩

/-! ## Lemmas: cursor-paged scroll over the message index (C5 machinery) -/

theorem bool_eq_of_iff {a b : Bool} (h : a = true ↔ b = true) : a = b := by
  cases a <;> cases b <;> simp_all

theorem getLast?_mem_list {α : Type} (l : List α) (a : α)
    (h : l.getLast? = some a) : a ∈ l := by
  rcases List.mem_getLast?_eq_getLast (l := l) (x := a) h with ⟨hne, heq⟩
  rw [heq]
  exact List.getLast_mem hne

theorem mem_convKeys (s : RepoState) (c : Nat) (x : Nat × Nat) :
    x ∈ convKeys s c ↔ x ∈ s.msgIdx ∧ x.1 = c := by
  simp [convKeys, List.mem_filter]

theorem descIdsOf_eq (s : RepoState) (c : Nat) :
    descIdsOf s c = (convKeys s c).map (fun x => x.2) := rfl

theorem mem_msgRestKeys (s : RepoState) (c : Nat) (cur : Option Nat)
    (x : Nat × Nat) :
    x ∈ msgRestKeys s c cur ↔
      x ∈ s.msgIdx ∧ x.1 = c ∧ x.2 ≤ msgBoundOf cur := by
  rw [msgRestKeys]
  simp only [List.mem_filter, mem_convKeys, decide_eq_true_eq]
  tauto

theorem msgIdxRange_eq (s : RepoState) (c : Nat)
    (hbnd : ∀ x ∈ s.msgIdx, 1 ≤ x.2 ∧ x.2 ≤ UMAX) (cur : Option Nat) :
    idxRange miLe (c, msgBoundOf cur) (c, 1) s.msgIdx = msgRestKeys s c cur := by
  rw [idxRange, msgRestKeys, convKeys, List.filter_filter]
  apply List.filter_congr
  intro k hk
  rcases k with ⟨k1, k2⟩
  have h1 : 1 ≤ k2 := (hbnd ⟨k1, k2⟩ hk).1
  apply bool_eq_of_iff
  simp only [miLe, miLt, Bool.or_eq_true, Bool.and_eq_true, decide_eq_true_eq,
    beq_iff_eq, Prod.mk.injEq]
  omega

theorem msgIdxFind_zero (s : RepoState) (c : Nat)
    (hbnd : ∀ x ∈ s.msgIdx, 1 ≤ x.2 ∧ x.2 ≤ UMAX) (cur : Option Nat) :
    msgIdxFind s.msgIdx c cur 0 = (msgRestKeys s c cur).map (fun x => x.2) := by
  have h0 : msgIdxFind s.msgIdx c cur 0 =
      (idxRange miLe (c, msgBoundOf cur) (c, 1) s.msgIdx).map (fun x => x.2) := rfl
  rw [h0, msgIdxRange_eq s c hbnd cur]

theorem msgIdxFind_limit (s : RepoState) (c : Nat)
    (hbnd : ∀ x ∈ s.msgIdx, 1 ≤ x.2 ∧ x.2 ≤ UMAX) (cur : Option Nat)
    (k : Nat) (hk : 1 ≤ k) :
    msgIdxFind s.msgIdx c cur k =
      ((msgRestKeys s c cur).take k).map (fun x => x.2) := by
  have hk0 : k ≠ 0 := by omega
  have hkne : (k == 0) = false := by simp [hk0]
  have h0 : msgIdxFind s.msgIdx c cur k =
      ((idxRange miLe (c, msgBoundOf cur) (c, 1) s.msgIdx).take k).map
        (fun x => x.2) := by
    simp [msgIdxFind, hkne]
  rw [h0, msgIdxRange_eq s c hbnd cur]

theorem msgGet_of_key (s : RepoState) (hInv : Inv s) (kx : Nat × Nat)
    (hk : kx ∈ s.msgIdx) :
    ∃ m, msgGet s kx.2 = some m ∧ m ∈ s.chatMessage ∧
      m.conversation = kx.1 ∧ m.id = kx.2 := by
  obtain ⟨⟨⟨hidx, _⟩, _, _⟩, hnm, _, _, _, _, _⟩ := hInv
  rcases hidx kx hk with ⟨m, hm, hkey⟩
  have h2 : kx.2 = m.id := congrArg Prod.snd hkey
  have h1 : kx.1 = m.conversation := congrArg Prod.fst hkey
  refine ⟨m, ?_, hm, h1.symm, h2.symm⟩
  show storeGet Message.id s.chatMessage kx.2 = some m
  rw [h2]
  exact storeGet_mem Message.id s.chatMessage m hnm hm

theorem filterMap_map_key {V : Type} (get : Nat → Option V) (key : V → Nat)
    (hkey : ∀ i v, get i = some v → key v = i) :
    ∀ (ids : List Nat), (∀ i ∈ ids, (get i).isSome) →
      ((ids.filterMap get).map key) = ids := by
  intro ids
  induction ids with
  | nil =>
    intro _
    rfl
  | cons i rest ih =>
    intro hall
    have hi := hall i (List.mem_cons_self i rest)
    rcases hsome : get i with _ | v
    · rw [hsome] at hi
      simp at hi
    · rw [List.filterMap_cons, hsome]
      simp only [List.map_cons]
      rw [hkey i v hsome, ih (fun j hj => hall j (List.mem_cons_of_mem i hj))]

theorem convKeys_sorted (s : RepoState) (c : Nat) (hs : SortedBy miLt s.msgIdx) :
    List.Pairwise (fun a b : Nat × Nat => b.2 < a.2) (convKeys s c) := by
  have hp : List.Pairwise (fun a b => miLt a b = true) (convKeys s c) :=
    List.Pairwise.filter _ hs
  apply List.Pairwise.imp_of_mem ?_ hp
  intro a b ha hb hab
  rcases a with ⟨a1, a2⟩
  rcases b with ⟨b1, b2⟩
  have hac : a1 = c := by
    have h := (mem_convKeys s c ⟨a1, a2⟩).mp ha
    exact h.2
  have hbc : b1 = c := by
    have h := (mem_convKeys s c ⟨b1, b2⟩).mp hb
    exact h.2
  simp only [miLt, Bool.or_eq_true, Bool.and_eq_true, decide_eq_true_eq,
    beq_iff_eq] at hab
  omega

theorem msgRestKeys_sorted (s : RepoState) (c : Nat) (cur : Option Nat)
    (hs : SortedBy miLt s.msgIdx) :
    List.Pairwise (fun a b : Nat × Nat => b.2 < a.2) (msgRestKeys s c cur) := by
  rw [msgRestKeys]
  exact List.Pairwise.filter _ (convKeys_sorted s c hs)

theorem getLast?_le_of_desc :
    ∀ (l : List (Nat × Nat)) (aK : Nat × Nat),
      List.Pairwise (fun a b : Nat × Nat => b.2 < a.2) l →
      l.getLast? = some aK → ∀ x ∈ l, aK.2 ≤ x.2 := by
  intro l
  induction l with
  | nil =>
    intro aK _ _ x hx
    cases hx
  | cons y ys ih =>
    intro aK hp hlast x hx
    rcases List.pairwise_cons.mp hp with ⟨hy, hys⟩
    cases ys with
    | nil =>
      have hxy : x = y := by
        rcases List.mem_cons.mp hx with h | h
        · exact h
        · cases h
      have hay : aK = y := by
        simp only [List.getLast?_singleton, Option.some.injEq] at hlast
        exact hlast.symm
      rw [hxy, hay]
    | cons z zs =>
      rw [List.getLast?_cons_cons] at hlast
      rcases List.mem_cons.mp hx with heq | hx2
      · have haK : aK ∈ z :: zs := getLast?_mem_list _ _ hlast
        rw [heq]
        exact le_of_lt (hy aK haK)
      · exact ih aK hys hlast x hx2

theorem filter_le_getLast_take (r : List (Nat × Nat)) (k : Nat)
    (aK : Nat × Nat) (_hk : 1 ≤ k)
    (hs : List.Pairwise (fun a b : Nat × Nat => b.2 < a.2) r)
    (hpos : ∀ x ∈ r, 1 ≤ x.2)
    (hlast : (r.take k).getLast? = some aK) :
    r.filter (fun x => decide (x.2 ≤ aK.2 - 1)) = r.drop k := by
  have haK_take : aK ∈ r.take k := getLast?_mem_list _ _ hlast
  have haKpos : 1 ≤ aK.2 := hpos aK (List.mem_of_mem_take haK_take)
  have hsplit : r = r.take k ++ r.drop k := (List.take_append_drop k r).symm
  have hstake : List.Pairwise (fun a b : Nat × Nat => b.2 < a.2) (r.take k) :=
    List.Pairwise.sublist (List.take_sublist k r) hs
  have hcross : ∀ x ∈ r.take k, ∀ y ∈ r.drop k, y.2 < x.2 :=
    (List.pairwise_append.mp (hsplit ▸ hs)).2.2
  have htake_ge : ∀ x ∈ r.take k, aK.2 ≤ x.2 :=
    getLast?_le_of_desc (r.take k) aK hstake hlast
  have h1 : (r.take k).filter (fun x => decide (x.2 ≤ aK.2 - 1)) = [] := by
    apply List.filter_eq_nil_iff.mpr
    intro x hx
    have hge := htake_ge x hx
    simp only [decide_eq_true_eq]
    omega
  have h2 : (r.drop k).filter (fun x => decide (x.2 ≤ aK.2 - 1)) = r.drop k := by
    apply List.filter_eq_self.mpr
    intro y hy
    have hlt := hcross aK haK_take y hy
    simp only [decide_eq_true_eq]
    omega
  conv_lhs => rw [hsplit]
  rw [List.filter_append, h1, h2, List.nil_append]

theorem msgRestKeys_step (s : RepoState) (c : Nat) (cur : Option Nat)
    (k : Nat) (aK : Nat × Nat)
    (hbnd : ∀ x ∈ s.msgIdx, 1 ≤ x.2 ∧ x.2 ≤ UMAX)
    (hs : SortedBy miLt s.msgIdx) (hk : 1 ≤ k)
    (hlast : ((msgRestKeys s c cur).take k).getLast? = some aK) :
    msgRestKeys s c (some aK.2) = (msgRestKeys s c cur).drop k := by
  have haK_mem : aK ∈ msgRestKeys s c cur :=
    List.mem_of_mem_take (getLast?_mem_list _ _ hlast)
  rcases (mem_msgRestKeys s c cur aK).mp haK_mem with ⟨haKidx, _, haKle⟩
  have haKpos : 1 ≤ aK.2 := (hbnd aK haKidx).1
  have h1 : msgRestKeys s c (some aK.2) =
      (msgRestKeys s c cur).filter (fun x => decide (x.2 ≤ aK.2 - 1)) := by
    rw [msgRestKeys, msgRestKeys, List.filter_filter]
    apply List.filter_congr
    intro x hx
    apply bool_eq_of_iff
    have hb : msgBoundOf (some aK.2) = aK.2 - 1 := rfl
    simp only [hb, Bool.and_eq_true, decide_eq_true_eq]
    omega
  rw [h1]
  exact filter_le_getLast_take (msgRestKeys s c cur) k aK hk
    (msgRestKeys_sorted s c cur hs)
    (fun x hx => (hbnd x ((mem_msgRestKeys s c cur x).mp hx).1).1)
    hlast

theorem collectPages_spec (s : RepoState) (c k : Nat) (hInv : Inv s)
    (hbnd : ∀ x ∈ s.msgIdx, 1 ≤ x.2 ∧ x.2 ≤ UMAX) (hk : 1 ≤ k) :
    ∀ (fuel : Nat) (cur : Option Nat),
      (msgRestKeys s c cur).length < fuel →
      collectPages s c k fuel cur =
        ((msgRestKeys s c cur).map (fun x => x.2)).filterMap
          (fun i => msgGet s i) := by
  have hsmi : SortedBy miLt s.msgIdx := hInv.2.2.2.2.1
  intro fuel
  induction fuel with
  | zero =>
    intro cur h
    exact absurd h (Nat.not_lt_zero _)
  | succ fuel ih =>
    intro cur hlen
    have hpage : (msgPagedList s c cur k).2 =
        (((msgRestKeys s c cur).take k).map (fun x => x.2)).filterMap
          (fun i => msgGet s i) := by
      show ((msgIdxFind s.msgIdx c cur k).filterMap (fun i => msgGet s i)) = _
      rw [msgIdxFind_limit s c hbnd cur k hk]
    rcases hre : msgRestKeys s c cur with _ | ⟨k0, restK⟩
    · have hempty : (msgPagedList s c cur k).2 = [] := by
        rw [hpage, hre]
        simp
      simp [collectPages, hempty]
    · have htke : (msgRestKeys s c cur).take k ≠ [] := by
        rw [hre]
        cases k with
        | zero => exact absurd hk (by omega)
        | succ k2 => simp
      obtain ⟨aK, hlast⟩ :
          ∃ aK, ((msgRestKeys s c cur).take k).getLast? = some aK := by
        rcases hgl : ((msgRestKeys s c cur).take k).getLast? with _ | aK
        · exact absurd (List.getLast?_eq_none_iff.mp hgl) htke
        · exact ⟨aK, rfl⟩
      have hall : ∀ i ∈ ((msgRestKeys s c cur).take k).map (fun x => x.2),
          ((fun i => msgGet s i) i).isSome := by
        intro i hi
        rcases List.mem_map.mp hi with ⟨x, hx, rfl⟩
        have hxm : x ∈ s.msgIdx :=
          ((mem_msgRestKeys s c cur x).mp (List.mem_of_mem_take hx)).1
        rcases msgGet_of_key s hInv x hxm with ⟨m, hm, _⟩
        simp [hm]
      have hmapid : ((msgPagedList s c cur k).2.map Message.id) =
          ((msgRestKeys s c cur).take k).map (fun x => x.2) := by
        rw [hpage]
        exact filterMap_map_key (fun i => msgGet s i) Message.id
          (fun i v hv => (storeGet_some Message.id s.chatMessage i v hv).2) _ hall
      have hpne : (msgPagedList s c cur k).2 ≠ [] := by
        intro hcon
        rw [hcon] at hmapid
        exact htke (List.map_eq_nil_iff.mp hmapid.symm)
      have hfst : (msgPagedList s c cur k).1 =
          ((msgPagedList s c cur k).2.map Message.id).getLast? := by
        show ((msgPagedList s c cur k).2.getLast?.map (fun m => m.id)) = _
        rw [List.getLast?_map]
      have hcur : (msgPagedList s c cur k).1 = some aK.2 := by
        rw [hfst, hmapid, List.getLast?_map, hlast]
        rfl
      have hie : (msgPagedList s c cur k).2.isEmpty = false := by
        rcases hp2 : (msgPagedList s c cur k).2 with _ | _
        · exact absurd hp2 hpne
        · rfl
      have hunfold : collectPages s c k (fuel + 1) cur =
          (msgPagedList s c cur k).2 ++
            collectPages s c k fuel (msgPagedList s c cur k).1 := by
        simp [collectPages, hie]
      have hdrop : msgRestKeys s c (some aK.2) = (msgRestKeys s c cur).drop k :=
        msgRestKeys_step s c cur k aK hbnd hsmi hk hlast
      have hlen2 : (msgRestKeys s c (some aK.2)).length < fuel := by
        rw [hdrop, List.length_drop, hre]
        rw [hre] at hlen
        simp only [List.length_cons] at hlen ⊢
        omega
      rw [hunfold, hcur, ih (some aK.2) hlen2, hdrop, hpage,
        ← List.filterMap_append, ← List.map_append, List.take_append_drop, hre]

/-- C5: for every well-formed state whose message ids lie in the u64 id
range, every conversation c and every page size k of at least 1, repeatedly
calling paged_list starting from cursor None and feeding the returned next
cursor back in (with enough fuel for all pages, no intervening writes) and
concatenating the pages yields exactly the messages of conversation c, in
strictly descending id order, each exactly once, with no duplicates and no
gaps. -/
theorem claim_C5_cursor_continuity (s : RepoState) (c k fuel : Nat)
    (hInv : Inv s) (hbnd : ∀ x ∈ s.msgIdx, 1 ≤ x.2 ∧ x.2 ≤ UMAX)
    (hk : 1 ≤ k) (hfuel : s.msgIdx.length < fuel) :
    ((collectPages s c k fuel none).map Message.id = descIdsOf s c) ∧
    List.Pairwise (fun a b => b < a)
      ((collectPages s c k fuel none).map Message.id) ∧
    (∀ m : Message, m ∈ collectPages s c k fuel none ↔
      (m ∈ s.chatMessage ∧ m.conversation = c)) := by
  have hsmi : SortedBy miLt s.msgIdx := hInv.2.2.2.2.1
  have hfull : msgRestKeys s c none = convKeys s c := by
    rw [msgRestKeys]
    apply List.filter_eq_self.mpr
    intro x hx
    have hxm : x ∈ s.msgIdx := ((mem_convKeys s c x).mp hx).1
    have hub := (hbnd x hxm).2
    simp only [msgBoundOf, decide_eq_true_eq]
    exact hub
  have hlenK : (msgRestKeys s c none).length < fuel := by
    rw [hfull]
    have hle : (convKeys s c).length ≤ s.msgIdx.length :=
      List.length_filter_le _ _
    omega
  have hout : collectPages s c k fuel none =
      ((convKeys s c).map (fun x => x.2)).filterMap (fun i => msgGet s i) := by
    rw [collectPages_spec s c k hInv hbnd hk fuel none hlenK, hfull]
  have hall : ∀ i ∈ (convKeys s c).map (fun x => x.2),
      ((fun i => msgGet s i) i).isSome := by
    intro i hi
    rcases List.mem_map.mp hi with ⟨x, hx, rfl⟩
    rcases msgGet_of_key s hInv x ((mem_convKeys s c x).mp hx).1 with ⟨m, hm, _⟩
    simp [hm]
  have hmap : (collectPages s c k fuel none).map Message.id = descIdsOf s c := by
    rw [hout, descIdsOf_eq]
    exact filterMap_map_key (fun i => msgGet s i) Message.id
      (fun i v hv => (storeGet_some Message.id s.chatMessage i v hv).2) _ hall
  refine ⟨hmap, ?_, ?_⟩
  · rw [hmap, descIdsOf_eq, List.pairwise_map]
    exact convKeys_sorted s c hsmi
  · intro m
    have hInv2 := hInv
    obtain ⟨⟨⟨hidx, hstore⟩, _, _⟩, hnm, _, _, _, _, _⟩ := hInv2
    rw [hout]
    constructor
    · intro hmm
      rcases List.mem_filterMap.mp hmm with ⟨i, hi, hget⟩
      rcases List.mem_map.mp hi with ⟨x, hx, rfl⟩
      rcases (mem_convKeys s c x).mp hx with ⟨hxm, hxc⟩
      rcases msgGet_of_key s hInv x hxm with ⟨m2, hm2get, hm2mem, hm2conv, _⟩
      have hm2 : m = m2 := Option.some.inj (hget.symm.trans hm2get)
      rw [hm2]
      exact ⟨hm2mem, hm2conv.trans hxc⟩
    · rintro ⟨hmm, hconv⟩
      apply List.mem_filterMap.mpr
      refine ⟨m.id, ?_, ?_⟩
      · apply List.mem_map.mpr
        refine ⟨(c, m.id), ?_, rfl⟩
        apply (mem_convKeys s c _).mpr
        refine ⟨?_, rfl⟩
        have hkm : msgKey m ∈ s.msgIdx := hstore m hmm
        have hkeq : msgKey m = (c, m.id) := by
          rw [msgKey, hconv]
        rw [← hkeq]
        exact hkm
      · show msgGet s m.id = some m
        exact storeGet_mem Message.id s.chatMessage m hnm hmm

/-- C5 witness: the full scroll over the 10-message state with page size 3
and fuel 11. -/
theorem claim_C5_cursor_continuity_witness :
    Inv s10 ∧ (∀ x ∈ s10.msgIdx, 1 ≤ x.2 ∧ x.2 ≤ UMAX) ∧ 1 ≤ 3 ∧
    s10.msgIdx.length < 11 ∧
    (((collectPages s10 1 3 11 none).map Message.id = descIdsOf s10 1) ∧
      List.Pairwise (fun a b => b < a)
        ((collectPages s10 1 3 11 none).map Message.id) ∧
      (∀ m : Message, m ∈ collectPages s10 1 3 11 none ↔
        (m ∈ s10.chatMessage ∧ m.conversation = 1))) :=
  ⟨by decide, by decide, by decide, by decide,
   claim_C5_cursor_continuity s10 1 3 11 (by decide) (by decide) (by decide)
     (by decide)⟩

/-! ## Lemmas: identity lookup over the user index (C9 machinery) -/

theorem le_getLast?_of_asc :
    ∀ (l : List Nat) (a : Nat),
      List.Pairwise (fun x y : Nat => x < y) l →
      l.getLast? = some a → ∀ x ∈ l, x ≤ a := by
  intro l
  induction l with
  | nil =>
    intro a _ _ x hx
    cases hx
  | cons y ys ih =>
    intro a hp hlast x hx
    rcases List.pairwise_cons.mp hp with ⟨hy, hys⟩
    cases ys with
    | nil =>
      have hxy : x = y := by
        rcases List.mem_cons.mp hx with h | h
        · exact h
        · cases h
      have hay : a = y := by
        simp only [List.getLast?_singleton, Option.some.injEq] at hlast
        exact hlast.symm
      rw [hxy, hay]
    | cons z zs =>
      rw [List.getLast?_cons_cons] at hlast
      rcases List.mem_cons.mp hx with heq | hx2
      · have ha : a ∈ z :: zs := getLast?_mem_list _ _ hlast
        rw [heq]
        exact le_of_lt (hy a ha)
      · exact ih a hys hlast x hx2

theorem userIdxFind_eq (s : RepoState) (p : Nat)
    (hbnd : ∀ x ∈ s.userIdx, 1 ≤ x.2 ∧ x.2 ≤ UMAX) :
    userIdxFind s.userIdx p none 0 =
      (s.userIdx.filter (fun k => k.1 == p)).map (fun k => k.2) := by
  rw [userIdxFind, idxRange]
  congr 1
  apply List.filter_congr
  intro k hk
  rcases k with ⟨k1, k2⟩
  have h1 : 1 ≤ k2 := (hbnd ⟨k1, k2⟩ hk).1
  have h2 : k2 ≤ UMAX := (hbnd ⟨k1, k2⟩ hk).2
  apply bool_eq_of_iff
  simp only [uiLe, uiLt, Bool.or_eq_true, Bool.and_eq_true, decide_eq_true_eq,
    beq_iff_eq, Prod.mk.injEq]
  omega

theorem userKeys_sorted (s : RepoState) (p : Nat) (hs : SortedBy uiLt s.userIdx) :
    List.Pairwise (fun a b : Nat × Nat => a.2 < b.2)
      (s.userIdx.filter (fun k => k.1 == p)) := by
  have hp : List.Pairwise (fun a b => uiLt a b = true)
      (s.userIdx.filter (fun k => k.1 == p)) := List.Pairwise.filter _ hs
  apply List.Pairwise.imp_of_mem ?_ hp
  intro a b ha hb hab
  rcases a with ⟨a1, a2⟩
  rcases b with ⟨b1, b2⟩
  have hac : a1 = p := by simpa using (List.mem_filter.mp ha).2
  have hbc : b1 = p := by simpa using (List.mem_filter.mp hb).2
  simp only [uiLt, Bool.or_eq_true, Bool.and_eq_true, decide_eq_true_eq,
    beq_iff_eq] at hab
  omega

theorem userGet_of_key (s : RepoState) (hInv : Inv s) (kx : Nat × Nat)
    (hk : kx ∈ s.userIdx) :
    ∃ u, userGet s kx.2 = some u ∧ u ∈ s.users ∧
      u.identity = kx.1 ∧ u.id = kx.2 := by
  obtain ⟨⟨_, _, ⟨hidx, _⟩⟩, _, _, hnu, _, _, _⟩ := hInv
  rcases hidx kx hk with ⟨u, hu, hkey⟩
  have h2 : kx.2 = u.id := congrArg Prod.snd hkey
  have h1 : kx.1 = u.identity := congrArg Prod.fst hkey
  refine ⟨u, ?_, hu, h1.symm, h2.symm⟩
  show storeGet User.id s.users kx.2 = some u
  rw [h2]
  exact storeGet_mem User.id s.users u hnu hu

/-- C9: getUser scans the whole identity-index range for the identity with
no cursor or limit and returns the last live match in ascending index
order: a returned user is stored, carries that identity, and has the
greatest id among all stored users with that identity; the result is none
exactly when no stored user has the identity. -/
theorem claim_C9_get_by_identity (s : RepoState) (p : Nat) (hInv : Inv s)
    (hbnd : ∀ x ∈ s.userIdx, 1 ≤ x.2 ∧ x.2 ≤ UMAX) :
    (∀ u, getUser s p = some u →
      u ∈ s.users ∧ u.identity = p ∧
        ∀ v ∈ s.users, v.identity = p → v.id ≤ u.id) ∧
    (getUser s p = none ↔ ∀ u ∈ s.users, u.identity ≠ p) := by
  have hInv2 := hInv
  obtain ⟨⟨_, _, ⟨hidx, hstore⟩⟩, _, _, hnu, _, _, hsu⟩ := hInv2
  have hgu : getUser s p =
      (((s.userIdx.filter (fun k => k.1 == p)).map (fun k => k.2)).filterMap
        (fun i => userGet s i)).getLast? := by
    show ((userIdxFind s.userIdx p none 0).filterMap
      (fun i => userGet s i)).getLast? = _
    rw [userIdxFind_eq s p hbnd]
  have hall : ∀ i ∈ (s.userIdx.filter (fun k => k.1 == p)).map (fun k => k.2),
      ((fun i => userGet s i) i).isSome := by
    intro i hi
    rcases List.mem_map.mp hi with ⟨x, hx, rfl⟩
    rcases userGet_of_key s hInv x (List.mem_of_mem_filter hx) with ⟨u, hu, _⟩
    simp [hu]
  have hmapid : ((((s.userIdx.filter (fun k => k.1 == p)).map
        (fun k => k.2)).filterMap (fun i => userGet s i)).map User.id) =
      (s.userIdx.filter (fun k => k.1 == p)).map (fun k => k.2) :=
    filterMap_map_key (fun i => userGet s i) User.id
      (fun i v hv => (storeGet_some User.id s.users i v hv).2) _ hall
  constructor
  · intro u hu
    rw [hgu] at hu
    have humem := getLast?_mem_list _ _ hu
    rcases List.mem_filterMap.mp humem with ⟨i, hi, hget⟩
    rcases List.mem_map.mp hi with ⟨x, hx, rfl⟩
    rcases userGet_of_key s hInv x (List.mem_of_mem_filter hx) with
      ⟨u2, hu2get, hu2mem, hu2ident, _⟩
    have hu2 : u = u2 := Option.some.inj (hget.symm.trans hu2get)
    have hx1 : x.1 = p := by simpa using (List.mem_filter.mp hx).2
    refine ⟨?_, ?_, ?_⟩
    · rw [hu2]
      exact hu2mem
    · rw [hu2, hu2ident, hx1]
    · intro v hv hvident
      have hkv : (p, v.id) ∈ s.userIdx := by
        have hmem := hstore v hv
        have hkeq : userKey v = (p, v.id) := by
          rw [userKey, hvident]
        rw [← hkeq]
        exact hmem
      have hvid_mem : v.id ∈
          (s.userIdx.filter (fun k => k.1 == p)).map (fun k => k.2) := by
        apply List.mem_map.mpr
        exact ⟨(p, v.id), List.mem_filter.mpr ⟨hkv, by simp⟩, rfl⟩
      have hlast_id :
          ((s.userIdx.filter (fun k => k.1 == p)).map (fun k => k.2)).getLast? =
            some u.id := by
        rw [← hmapid, List.getLast?_map, hu]
        rfl
      have hasc : List.Pairwise (fun a b : Nat => a < b)
          ((s.userIdx.filter (fun k => k.1 == p)).map (fun k => k.2)) := by
        rw [List.pairwise_map]
        exact userKeys_sorted s p hsu
      exact le_getLast?_of_asc _ _ hasc hlast_id v.id hvid_mem
  · rw [hgu]
    constructor
    · intro hnone u hu hident
      have hempty : (((s.userIdx.filter (fun k => k.1 == p)).map
          (fun k => k.2)).filterMap (fun i => userGet s i)) = [] :=
        List.getLast?_eq_none_iff.mp hnone
      have hids : (s.userIdx.filter (fun k => k.1 == p)).map (fun k => k.2) = [] := by
        rw [← hmapid, hempty]
        rfl
      have hkv : (p, u.id) ∈ s.userIdx := by
        have hmem := hstore u hu
        have hkeq : userKey u = (p, u.id) := by
          rw [userKey, hident]
        rw [← hkeq]
        exact hmem
      have : u.id ∈ (s.userIdx.filter (fun k => k.1 == p)).map (fun k => k.2) :=
        List.mem_map.mpr ⟨(p, u.id), List.mem_filter.mpr ⟨hkv, by simp⟩, rfl⟩
      rw [hids] at this
      cases this
    · intro hforall
      apply List.getLast?_eq_none_iff.mpr
      have hids : s.userIdx.filter (fun k => k.1 == p) = [] := by
        rcases hcase : s.userIdx.filter (fun k => k.1 == p) with _ | ⟨x, rest⟩
        · exact hcase
        · exfalso
          have hx : x ∈ s.userIdx.filter (fun k => k.1 == p) := by
            rw [hcase]
            exact List.mem_cons_self x rest
          rcases userGet_of_key s hInv x (List.mem_of_mem_filter hx) with
            ⟨u, _, humem, huident, _⟩
          have hx1 : x.1 = p := by simpa using (List.mem_filter.mp hx).2
          exact hforall u humem (by rw [huident, hx1])
      rw [hids]
      rfl

/-- C9 witness: two stored users share identity 5; the lookup returns the
one with the greater id. -/
theorem claim_C9_get_by_identity_witness :
    Inv sC9 ∧ (∀ x ∈ sC9.userIdx, 1 ≤ x.2 ∧ x.2 ≤ UMAX) ∧
    ((∀ u, getUser sC9 5 = some u →
        u ∈ sC9.users ∧ u.identity = 5 ∧
          ∀ v ∈ sC9.users, v.identity = 5 → v.id ≤ u.id) ∧
      (getUser sC9 5 = none ↔ ∀ u ∈ sC9.users, u.identity ≠ 5)) :=
  ⟨by decide, by decide, claim_C9_get_by_identity sC9 5 (by decide) (by decide)⟩

end ICV
